import Mathlib

/-!
Verification of the task-execution engine of `rust_playground`
(`src/taskmanager/src/lib.rs`, parallel thread-pool model, and
`src/taskmanager_async/src/lib.rs`, cooperative tokio model).

A task reference (`Arc<dyn ITask + Send>`) is modelled as a `Task` record
carrying its reference identity (`id`, the pointer compared by
`Arc::ptr_eq`) and its payload (`content`, never inspected by the engine).
The `VecDeque<Arc<dyn ITask>>` guarded by the mutex is modelled as a
`List Task` whose head is the front of the deque; each locked section of a
`TaskPool` method is one atomic operation on that list.

The running worker contexts of the parallel model (`ThreadExecutor::_execute`)
are modelled by a small-step transition system `Step` on `PState`: each
spawned context has a program counter (`Ctx`), and the shared queue is the
only shared state.  Calls `task.on_execute()` / `task.on_complete()` are
opaque to the pool and are recorded as events.
-/

namespace TaskManager

/-- A task reference. `id` is the reference identity (the `Arc` pointer);
`content` is the task's own data, never inspected by the engine. -/
structure Task where
  id : Nat
  content : Nat
deriving DecidableEq, Repr

/-- The identity comparison `Arc::ptr_eq(t, &task)` used by `erase`. -/
def ptr_eq (a b : Task) : Bool := a.id == b.id

/-- `TaskPool::enqueue`: `tasks.push_back(task)` under the lock. -/
def enqueue (q : List Task) (t : Task) : List Task := q ++ [t]

/-- `TaskPool::dequeue`: `tasks.pop_front()` under the lock; returns the
removed head (if any) together with the remaining queue. -/
def dequeue (q : List Task) : Option Task × List Task :=
  match q with
  | [] => (none, [])
  | t :: rest => (some t, rest)

/-- `TaskPool::erase`: `tasks.retain(|t| !Arc::ptr_eq(t, &task))` under the
lock — keeps exactly the elements whose reference identity differs. -/
def erase (q : List Task) (t : Task) : List Task :=
  q.filter (fun x => !(ptr_eq x t))

/-- `TaskPool::clear`: `tasks.clear()` under the lock. -/
def clear (_q : List Task) : List Task := []

/-- `TaskPool::is_empty`: `tasks.is_empty()` under the lock. -/
def is_empty (q : List Task) : Bool := q.isEmpty

/-- The reference identities currently in the queue. -/
def ids (q : List Task) : List Nat := q.map Task.id

/-- One caller-visible queue operation (the four mutating `TaskPool` methods). -/
inductive QOp where
  | enq (t : Task)
  | deq
  | ers (t : Task)
  | clr
deriving DecidableEq, Repr

/-- Apply one queue operation. -/
def applyOp (q : List Task) : QOp → List Task
  | .enq t => enqueue q t
  | .deq => (dequeue q).2
  | .ers t => erase q t
  | .clr => clear q

/-- Apply a sequence of queue operations, oldest first. -/
def applyOps (q : List Task) (ops : List QOp) : List Task :=
  ops.foldl applyOp q

/-- Is this operation allowed on the current queue?  Only `enq` is
restricted: its argument's reference must be absent. -/
def opOk (q : List Task) : QOp → Bool
  | .enq t => !((ids q).contains t.id)
  | _ => true

/-- A sequence of operations is disciplined when every `enq` argument's
reference is absent from the queue at the moment it is enqueued. -/
def validOps (q : List Task) : List QOp → Bool
  | [] => true
  | op :: rest => opOk q op && validOps (applyOp q op) rest

/-- The at-most-once invariant: no reference identity occurs twice. -/
def atMostOnce (q : List Task) : Prop := (ids q).Nodup

/-!
### Parallel model: the spawned contexts of `ThreadExecutor::_execute`

Each context spawned by `ThreadExecutor::execute` runs

```
while !task_pool.is_empty() {
    if let Some(task) = task_pool.dequeue() {
        task.on_execute();
        task.on_complete();
    } else {
        thread::yield_now();
    }
}
```

Every queue access takes the mutex once, so the atomic actions of a context
are: the emptiness test, the dequeue, and the two opaque task calls.
-/

/-- An observable call into a task, tagged with the worker context that made
it.  `on_execute` is opaque to the pool, so each call is one atomic event. -/
inductive Event where
  | exec (w : Nat) (t : Task)
  | compl (w : Nat) (t : Task)
deriving DecidableEq, Repr

/-- Program counter of one spawned context running `ThreadExecutor::_execute`:
`check` is the `while !task_pool.is_empty()` test, `tryDeq` the
`task_pool.dequeue()` call, `run t` the pending `t.on_execute()`, `finish t`
the pending `t.on_complete()`, and `done` the loop having exited. -/
inductive Ctx where
  | check
  | tryDeq
  | run (t : Task)
  | finish (t : Task)
  | done
deriving DecidableEq, Repr

/-- Global state of the parallel model: the shared queue, the program counter
of every spawned context, and the trace of task calls made so far. -/
structure PState where
  queue : List Task
  ctxs : List Ctx
  events : List Event
deriving DecidableEq, Repr

/-- Interleaved small-step semantics of `ThreadExecutor::_execute`: at each
step one context `w` performs its next atomic action. -/
inductive Step : PState → PState → Prop where
  | exit (s : PState) (w : Nat) (h : s.ctxs[w]? = some .check)
      (he : is_empty s.queue = true) :
      Step s ⟨s.queue, s.ctxs.set w .done, s.events⟩
  | poll (s : PState) (w : Nat) (h : s.ctxs[w]? = some .check)
      (he : is_empty s.queue = false) :
      Step s ⟨s.queue, s.ctxs.set w .tryDeq, s.events⟩
  | deqSome (s : PState) (w : Nat) (t : Task) (rest : List Task)
      (h : s.ctxs[w]? = some .tryDeq) (hd : dequeue s.queue = (some t, rest)) :
      Step s ⟨rest, s.ctxs.set w (.run t), s.events⟩
  | deqNone (s : PState) (w : Nat)
      (h : s.ctxs[w]? = some .tryDeq) (hd : (dequeue s.queue).1 = none) :
      Step s ⟨s.queue, s.ctxs.set w .check, s.events⟩
  | execTask (s : PState) (w : Nat) (t : Task)
      (h : s.ctxs[w]? = some (.run t)) :
      Step s ⟨s.queue, s.ctxs.set w (.finish t), s.events ++ [.exec w t]⟩
  | complTask (s : PState) (w : Nat) (t : Task)
      (h : s.ctxs[w]? = some (.finish t)) :
      Step s ⟨s.queue, s.ctxs.set w .check, s.events ++ [.compl w t]⟩

/-- Reachability: zero or more interleaved steps. -/
def Reach : PState → PState → Prop := Relation.ReflTransGen Step

/-- State after `add_task` calls have built queue `q` and
`ThreadPool::execute` has spawned `n` contexts, each at the loop test. -/
def init (n : Nat) (q : List Task) : PState :=
  ⟨q, List.replicate n .check, []⟩

/-- Does this event record `t.on_execute()`? -/
def isExecOf (t : Task) : Event → Bool
  | .exec _ t' => t' == t
  | _ => false

/-- Does this event record `t.on_complete()`? -/
def isComplOf (t : Task) : Event → Bool
  | .compl _ t' => t' == t
  | _ => false

/-- Number of `on_execute` calls on `t` in a trace. -/
def execCount (t : Task) (l : List Event) : Nat := l.countP (isExecOf t)

/-- Number of `on_complete` calls on `t` in a trace. -/
def complCount (t : Task) (l : List Event) : Nat := l.countP (isComplOf t)

/-- Has the context dequeued `t` with its `on_execute()` still pending? -/
def owesExec (t : Task) : Ctx → Bool
  | .run t' => t' == t
  | _ => false

/-- Has the context called `t.on_execute()` but not yet `t.on_complete()`? -/
def owesCompl (t : Task) : Ctx → Bool
  | .finish t' => t' == t
  | _ => false

/-- Events made by worker context `w`. -/
def byWorker (w : Nat) : Event → Bool
  | .exec w' _ => w' == w
  | .compl w' _ => w' == w

/-- The trace generated by a list of `(worker, task)` pairs, each
contributing `on_execute` immediately followed by `on_complete`. -/
def pairSeq (ps : List (Nat × Task)) : List Event :=
  ps.flatMap (fun p => [.exec p.1 p.2, .compl p.1 p.2])

/-- A trace made of complete execute/complete pairs. -/
def paired (l : List Event) : Prop := ∃ ps, l = pairSeq ps

/-- Well-formedness of one worker's own subtrace relative to its pc: complete
pairs, plus a trailing `exec t` exactly when the context sits between
`t.on_execute()` and `t.on_complete()`. -/
def workerWF (w : Nat) (evs : List Event) : Ctx → Prop
  | .finish t => ∃ l, evs = l ++ [.exec w t] ∧ paired l
  | _ => paired evs

/-- Conservation: every reference is accounted for exactly as often as it was
submitted — still queued, dequeued with `on_execute` pending, or recorded in
the trace. -/
def conserved (q0 : List Task) (s : PState) : Prop :=
  ∀ t : Task,
    s.queue.count t + s.ctxs.countP (owesExec t) + execCount t s.events
      = q0.count t

/-- Every `on_complete` call is matched against an earlier `on_execute`. -/
def complBalance (s : PState) : Prop :=
  ∀ t : Task,
    complCount t s.events + s.ctxs.countP (owesCompl t) = execCount t s.events

/-- Per-worker trace discipline for every context. -/
def perWorkerWF (s : PState) : Prop :=
  ∀ w c, s.ctxs[w]? = some c → workerWF w (s.events.filter (byWorker w)) c

/-- Once every context has exited, the queue is empty: a context exits only
upon observing emptiness, and nothing refills the queue during a run. -/
def drained (s : PState) : Prop :=
  (∀ c ∈ s.ctxs, c = Ctx.done) → s.queue = []

/-- The global invariant of the parallel model for an initial queue `q0`. -/
def Inv (q0 : List Task) (s : PState) : Prop :=
  conserved q0 s ∧ complBalance s ∧ perWorkerWF s ∧ drained s

/-! ### Basic lemmas about the queue operations -/

lemma is_empty_iff {q : List Task} : is_empty q = true ↔ q = [] :=
  List.isEmpty_iff

lemma dequeue_eq_some {q : List Task} {t : Task} {rest : List Task}
    (h : dequeue q = (some t, rest)) : q = t :: rest := by
  cases q with
  | nil => simp [dequeue] at h
  | cons a l =>
      simp [dequeue] at h
      rw [h.1, h.2]

lemma dequeue_fst_none {q : List Task} (h : (dequeue q).1 = none) : q = [] := by
  cases q with
  | nil => rfl
  | cons a l => simp [dequeue] at h

lemma dequeue_head_tail (q : List Task) : dequeue q = (q.head?, q.tail) := by
  cases q <;> rfl

lemma erase_not_mem (q : List Task) (t : Task) : t ∉ erase q t := by
  intro h
  rw [erase, List.mem_filter] at h
  simp [ptr_eq] at h

lemma erase_eq_self {q : List Task} {t : Task} (h : ∀ x ∈ q, x.id ≠ t.id) :
    erase q t = q := by
  rw [erase, List.filter_eq_self]
  intro x hx
  simp [ptr_eq, h x hx]

/-! ### Generic list helpers -/

lemma mem_of_get_some {α : Type} {l : List α} {w : Nat} {a : α}
    (h : l[w]? = some a) : a ∈ l := by
  obtain ⟨hlt, rfl⟩ := List.getElem?_eq_some.mp h
  exact List.getElem_mem hlt

lemma mem_set_self {α : Type} (l : List α) (w : Nat) (a : α)
    (h : w < l.length) : a ∈ l.set w a := by
  apply mem_of_get_some (w := w)
  simp [List.getElem?_set_eq_of_lt, h]

lemma countP_set {α : Type} (p : α → Bool) :
    ∀ (l : List α) (w : Nat) (c cOld : α), l[w]? = some cOld →
      (l.set w c).countP p + (if p cOld then 1 else 0)
        = l.countP p + (if p c then 1 else 0)
  | [], w, c, cOld, h => by simp at h
  | a :: l, 0, c, cOld, h => by
      simp only [List.getElem?_cons_zero, Option.some_inj] at h
      subst h
      simp only [List.set_cons_zero, List.countP_cons]
      split_ifs <;> omega
  | a :: l, w + 1, c, cOld, h => by
      simp only [List.getElem?_cons_succ] at h
      have ih := countP_set p l w c cOld h
      simp only [List.set_cons_succ, List.countP_cons]
      split_ifs at ih ⊢ <;> omega

lemma countP_set_eq {α : Type} {l : List α} {w : Nat}
    {cOld : α} (p : α → Bool) (c : α) (h : l[w]? = some cOld)
    (h1 : p cOld = p c) :
    (l.set w c).countP p = l.countP p := by
  have h2 := countP_set p l w c cOld h
  rw [h1] at h2
  exact Nat.add_right_cancel h2

lemma ite_beq_eq_ite_eq (a b : Task) :
    (if (a == b) = true then 1 else 0) = (if a = b then 1 else 0) := by
  simp [beq_iff_eq]

/-! ### Trace bookkeeping lemmas -/

lemma execCount_append_exec (t : Task) (l : List Event) (w : Nat) (t' : Task) :
    execCount t (l ++ [Event.exec w t'])
      = execCount t l + (if t' = t then 1 else 0) := by
  simp [execCount, List.countP_append, List.countP_cons, isExecOf, beq_iff_eq]

lemma execCount_append_compl (t : Task) (l : List Event) (w : Nat) (t' : Task) :
    execCount t (l ++ [Event.compl w t']) = execCount t l := by
  simp [execCount, List.countP_append, isExecOf]

lemma complCount_append_exec (t : Task) (l : List Event) (w : Nat) (t' : Task) :
    complCount t (l ++ [Event.exec w t']) = complCount t l := by
  simp [complCount, List.countP_append, isComplOf]

lemma complCount_append_compl (t : Task) (l : List Event) (w : Nat) (t' : Task) :
    complCount t (l ++ [Event.compl w t'])
      = complCount t l + (if t' = t then 1 else 0) := by
  simp [complCount, List.countP_append, List.countP_cons, isComplOf, beq_iff_eq]

lemma filter_append_own (w : Nat) (l : List Event) (e : Event)
    (he : byWorker w e = true) :
    (l ++ [e]).filter (byWorker w) = l.filter (byWorker w) ++ [e] := by
  simp [List.filter_append, he]

lemma filter_append_other (w : Nat) (l : List Event) (e : Event)
    (he : byWorker w e = false) :
    (l ++ [e]).filter (byWorker w) = l.filter (byWorker w) := by
  simp [List.filter_append, he]

lemma pairSeq_append (ps1 ps2 : List (Nat × Task)) :
    pairSeq (ps1 ++ ps2) = pairSeq ps1 ++ pairSeq ps2 := by
  simp [pairSeq]

lemma paired_nil : paired [] := ⟨[], rfl⟩

lemma paired_append_pair {l : List Event} (h : paired l) (w : Nat) (t : Task) :
    paired (l ++ [Event.exec w t, Event.compl w t]) := by
  obtain ⟨ps, rfl⟩ := h
  exact ⟨ps ++ [(w, t)], by simp [pairSeq_append, pairSeq]⟩

lemma workerWF_plain {w : Nat} {evs : List Event} {c : Ctx}
    (h : ∀ t, c ≠ Ctx.finish t) : workerWF w evs c ↔ paired evs := by
  cases c
  case finish t => exact absurd rfl (h t)
  all_goals exact Iff.rfl

lemma check_ne_finish : ∀ t, Ctx.check ≠ Ctx.finish t :=
  fun _ h => Ctx.noConfusion h

lemma tryDeq_ne_finish : ∀ t, Ctx.tryDeq ≠ Ctx.finish t :=
  fun _ h => Ctx.noConfusion h

lemma done_ne_finish : ∀ t, Ctx.done ≠ Ctx.finish t :=
  fun _ h => Ctx.noConfusion h

lemma run_ne_finish (u : Task) : ∀ t, Ctx.run u ≠ Ctx.finish t :=
  fun _ h => Ctx.noConfusion h

lemma countP_replicate_check (p : Ctx → Bool) (hp : p Ctx.check = false)
    (n : Nat) : (List.replicate n Ctx.check).countP p = 0 := by
  rw [List.countP_eq_zero]
  intro c hc
  rw [(List.mem_replicate.mp hc).2]
  simp [hp]

/-! ### The invariant holds initially and is preserved by every step -/

lemma inv_init {q0 : List Task} {n : Nat} (hn : 1 ≤ n) :
    Inv q0 (init n q0) := by
  refine ⟨?_, ?_, ?_, ?_⟩
  · intro t
    show q0.count t + (List.replicate n Ctx.check).countP (owesExec t)
        + execCount t [] = q0.count t
    rw [countP_replicate_check _ rfl]
    simp [execCount]
  · intro t
    show complCount t [] + (List.replicate n Ctx.check).countP (owesCompl t)
        = execCount t []
    rw [countP_replicate_check _ rfl]
    simp [execCount, complCount]
  · intro w c hc
    have hcc : c = Ctx.check := (List.mem_replicate.mp (mem_of_get_some hc)).2
    subst hcc
    show workerWF w (List.filter (byWorker w) []) Ctx.check
    rw [List.filter_nil, workerWF_plain check_ne_finish]
    exact paired_nil
  · intro hall
    have hm : Ctx.check ∈ List.replicate n Ctx.check :=
      List.mem_replicate.mpr ⟨by omega, rfl⟩
    exact absurd (hall _ hm) (by simp)

lemma inv_step {q0 : List Task} {s s' : PState} (hs : Inv q0 s)
    (hst : Step s s') : Inv q0 s' := by
  obtain ⟨hc, hb, hp, _hdr⟩ := hs
  cases hst with
  | exit w h he =>
      have hlt : w < s.ctxs.length := (List.getElem?_eq_some.mp h).1
      refine ⟨?_, ?_, ?_, ?_⟩
      · intro t
        show s.queue.count t + (s.ctxs.set w Ctx.done).countP (owesExec t)
            + execCount t s.events = q0.count t
        rw [countP_set_eq (owesExec t) Ctx.done h rfl]
        exact hc t
      · intro t
        show complCount t s.events
            + (s.ctxs.set w Ctx.done).countP (owesCompl t)
            = execCount t s.events
        rw [countP_set_eq (owesCompl t) Ctx.done h rfl]
        exact hb t
      · intro w' c' h'
        by_cases hw : w' = w
        · subst hw
          have h2 : (s.ctxs.set w' Ctx.done)[w']? = some Ctx.done := by
            simp [List.getElem?_set_eq_of_lt, hlt]
          have hc' : c' = Ctx.done := (Option.some_inj.mp (h2.symm.trans h')).symm
          subst hc'
          show workerWF w' (s.events.filter (byWorker w')) Ctx.done
          rw [workerWF_plain done_ne_finish]
          have hold := hp w' Ctx.check h
          rw [workerWF_plain check_ne_finish] at hold
          exact hold
        · rw [List.getElem?_set_ne (Ne.symm hw)] at h'
          exact hp w' c' h'
      · intro _
        exact is_empty_iff.mp he
  | poll w h he =>
      have hlt : w < s.ctxs.length := (List.getElem?_eq_some.mp h).1
      refine ⟨?_, ?_, ?_, ?_⟩
      · intro t
        show s.queue.count t + (s.ctxs.set w Ctx.tryDeq).countP (owesExec t)
            + execCount t s.events = q0.count t
        rw [countP_set_eq (owesExec t) Ctx.tryDeq h rfl]
        exact hc t
      · intro t
        show complCount t s.events
            + (s.ctxs.set w Ctx.tryDeq).countP (owesCompl t)
            = execCount t s.events
        rw [countP_set_eq (owesCompl t) Ctx.tryDeq h rfl]
        exact hb t
      · intro w' c' h'
        by_cases hw : w' = w
        · subst hw
          have h2 : (s.ctxs.set w' Ctx.tryDeq)[w']? = some Ctx.tryDeq := by
            simp [List.getElem?_set_eq_of_lt, hlt]
          have hc' : c' = Ctx.tryDeq := (Option.some_inj.mp (h2.symm.trans h')).symm
          subst hc'
          show workerWF w' (s.events.filter (byWorker w')) Ctx.tryDeq
          rw [workerWF_plain tryDeq_ne_finish]
          have hold := hp w' Ctx.check h
          rw [workerWF_plain check_ne_finish] at hold
          exact hold
        · rw [List.getElem?_set_ne (Ne.symm hw)] at h'
          exact hp w' c' h'
      · intro hall
        exact absurd (hall _ (mem_set_self s.ctxs w Ctx.tryDeq hlt)) (by simp)
  | deqSome w t rest h hd =>
      have hlt : w < s.ctxs.length := (List.getElem?_eq_some.mp h).1
      have hq : s.queue = t :: rest := dequeue_eq_some hd
      refine ⟨?_, ?_, ?_, ?_⟩
      · intro t'
        have e1 := countP_set (owesExec t') s.ctxs w (Ctx.run t) Ctx.tryDeq h
        rw [show (if owesExec t' Ctx.tryDeq = true then 1 else 0) = 0 from rfl,
          Nat.add_zero,
          show owesExec t' (Ctx.run t) = (t == t') from rfl,
          ite_beq_eq_ite_eq] at e1
        have e0 := hc t'
        rw [hq, List.count_cons, ite_beq_eq_ite_eq] at e0
        show rest.count t' + (s.ctxs.set w (Ctx.run t)).countP (owesExec t')
            + execCount t' s.events = q0.count t'
        by_cases hx : t = t'
        · subst hx
          rw [if_pos rfl] at e1
          rw [if_pos rfl] at e0
          omega
        · rw [if_neg hx] at e1
          rw [if_neg hx] at e0
          omega
      · intro t'
        show complCount t' s.events
            + (s.ctxs.set w (Ctx.run t)).countP (owesCompl t')
            = execCount t' s.events
        rw [countP_set_eq (owesCompl t') (Ctx.run t) h rfl]
        exact hb t'
      · intro w' c' h'
        by_cases hw : w' = w
        · subst hw
          have h2 : (s.ctxs.set w' (Ctx.run t))[w']? = some (Ctx.run t) := by
            simp [List.getElem?_set_eq_of_lt, hlt]
          have hc' : c' = Ctx.run t := (Option.some_inj.mp (h2.symm.trans h')).symm
          subst hc'
          show workerWF w' (s.events.filter (byWorker w')) (Ctx.run t)
          rw [workerWF_plain (run_ne_finish t)]
          have hold := hp w' Ctx.tryDeq h
          rw [workerWF_plain tryDeq_ne_finish] at hold
          exact hold
        · rw [List.getElem?_set_ne (Ne.symm hw)] at h'
          exact hp w' c' h'
      · intro hall
        exact absurd (hall _ (mem_set_self s.ctxs w (Ctx.run t) hlt)) (by simp)
  | deqNone w h hd =>
      have hlt : w < s.ctxs.length := (List.getElem?_eq_some.mp h).1
      refine ⟨?_, ?_, ?_, ?_⟩
      · intro t
        show s.queue.count t + (s.ctxs.set w Ctx.check).countP (owesExec t)
            + execCount t s.events = q0.count t
        rw [countP_set_eq (owesExec t) Ctx.check h rfl]
        exact hc t
      · intro t
        show complCount t s.events
            + (s.ctxs.set w Ctx.check).countP (owesCompl t)
            = execCount t s.events
        rw [countP_set_eq (owesCompl t) Ctx.check h rfl]
        exact hb t
      · intro w' c' h'
        by_cases hw : w' = w
        · subst hw
          have h2 : (s.ctxs.set w' Ctx.check)[w']? = some Ctx.check := by
            simp [List.getElem?_set_eq_of_lt, hlt]
          have hc' : c' = Ctx.check := (Option.some_inj.mp (h2.symm.trans h')).symm
          subst hc'
          show workerWF w' (s.events.filter (byWorker w')) Ctx.check
          rw [workerWF_plain check_ne_finish]
          have hold := hp w' Ctx.tryDeq h
          rw [workerWF_plain tryDeq_ne_finish] at hold
          exact hold
        · rw [List.getElem?_set_ne (Ne.symm hw)] at h'
          exact hp w' c' h'
      · intro hall
        exact absurd (hall _ (mem_set_self s.ctxs w Ctx.check hlt)) (by simp)
  | execTask w t h =>
      have hlt : w < s.ctxs.length := (List.getElem?_eq_some.mp h).1
      refine ⟨?_, ?_, ?_, ?_⟩
      · intro t'
        have e1 := countP_set (owesExec t') s.ctxs w (Ctx.finish t) (Ctx.run t) h
        rw [show owesExec t' (Ctx.run t) = (t == t') from rfl,
          ite_beq_eq_ite_eq,
          show (if owesExec t' (Ctx.finish t) = true then 1 else 0) = 0 from rfl,
          Nat.add_zero] at e1
        have e0 := hc t'
        show s.queue.count t'
            + (s.ctxs.set w (Ctx.finish t)).countP (owesExec t')
            + execCount t' (s.events ++ [Event.exec w t]) = q0.count t'
        rw [execCount_append_exec]
        by_cases hx : t = t'
        · subst hx
          rw [if_pos rfl] at e1 ⊢
          omega
        · rw [if_neg hx] at e1 ⊢
          omega
      · intro t'
        have e1 := countP_set (owesCompl t') s.ctxs w (Ctx.finish t) (Ctx.run t) h
        rw [show (if owesCompl t' (Ctx.run t) = true then 1 else 0) = 0 from rfl,
          Nat.add_zero,
          show owesCompl t' (Ctx.finish t) = (t == t') from rfl,
          ite_beq_eq_ite_eq] at e1
        have e0 := hb t'
        show complCount t' (s.events ++ [Event.exec w t])
            + (s.ctxs.set w (Ctx.finish t)).countP (owesCompl t')
            = execCount t' (s.events ++ [Event.exec w t])
        rw [execCount_append_exec, complCount_append_exec]
        by_cases hx : t = t'
        · subst hx
          rw [if_pos rfl] at e1 ⊢
          omega
        · rw [if_neg hx] at e1 ⊢
          omega
      · intro w' c' h'
        by_cases hw : w' = w
        · subst hw
          have h2 : (s.ctxs.set w' (Ctx.finish t))[w']? = some (Ctx.finish t) := by
            simp [List.getElem?_set_eq_of_lt, hlt]
          have hc' : c' = Ctx.finish t := (Option.some_inj.mp (h2.symm.trans h')).symm
          subst hc'
          have hown : byWorker w' (Event.exec w' t) = true := by simp [byWorker]
          have hold := hp w' (Ctx.run t) h
          rw [workerWF_plain (run_ne_finish t)] at hold
          show workerWF w'
            ((s.events ++ [Event.exec w' t]).filter (byWorker w')) (Ctx.finish t)
          refine ⟨s.events.filter (byWorker w'), ?_, hold⟩
          rw [filter_append_own _ _ _ hown]
        · have hoth : byWorker w' (Event.exec w t) = false := by
            simp [byWorker, beq_eq_false_iff_ne]
            exact fun hh => hw hh.symm
          rw [List.getElem?_set_ne (Ne.symm hw)] at h'
          have hold := hp w' c' h'
          rw [filter_append_other _ _ _ hoth]
          exact hold
      · intro hall
        exact absurd (hall _ (mem_set_self s.ctxs w (Ctx.finish t) hlt)) (by simp)
  | complTask w t h =>
      have hlt : w < s.ctxs.length := (List.getElem?_eq_some.mp h).1
      refine ⟨?_, ?_, ?_, ?_⟩
      · intro t'
        show s.queue.count t'
            + (s.ctxs.set w Ctx.check).countP (owesExec t')
            + execCount t' (s.events ++ [Event.compl w t]) = q0.count t'
        rw [execCount_append_compl, countP_set_eq (owesExec t') Ctx.check h rfl]
        exact hc t'
      · intro t'
        have e1 := countP_set (owesCompl t') s.ctxs w Ctx.check (Ctx.finish t) h
        rw [show owesCompl t' (Ctx.finish t) = (t == t') from rfl,
          ite_beq_eq_ite_eq,
          show (if owesCompl t' Ctx.check = true then 1 else 0) = 0 from rfl,
          Nat.add_zero] at e1
        have e0 := hb t'
        show complCount t' (s.events ++ [Event.compl w t])
            + (s.ctxs.set w Ctx.check).countP (owesCompl t')
            = execCount t' (s.events ++ [Event.compl w t])
        rw [execCount_append_compl, complCount_append_compl]
        by_cases hx : t = t'
        · subst hx
          rw [if_pos rfl] at e1 ⊢
          omega
        · rw [if_neg hx] at e1 ⊢
          omega
      · intro w' c' h'
        by_cases hw : w' = w
        · subst hw
          have h2 : (s.ctxs.set w' Ctx.check)[w']? = some Ctx.check := by
            simp [List.getElem?_set_eq_of_lt, hlt]
          have hc' : c' = Ctx.check := (Option.some_inj.mp (h2.symm.trans h')).symm
          subst hc'
          have hown : byWorker w' (Event.compl w' t) = true := by simp [byWorker]
          have hold := hp w' (Ctx.finish t) h
          obtain ⟨l, hl, hpl⟩ := hold
          show workerWF w'
            ((s.events ++ [Event.compl w' t]).filter (byWorker w')) Ctx.check
          rw [workerWF_plain check_ne_finish,
            filter_append_own _ _ _ hown, hl, List.append_assoc]
          exact paired_append_pair hpl w' t
        · have hoth : byWorker w' (Event.compl w t) = false := by
            simp [byWorker, beq_eq_false_iff_ne]
            exact fun hh => hw hh.symm
          rw [List.getElem?_set_ne (Ne.symm hw)] at h'
          have hold := hp w' c' h'
          rw [filter_append_other _ _ _ hoth]
          exact hold
      · intro hall
        exact absurd (hall _ (mem_set_self s.ctxs w Ctx.check hlt)) (by simp)

lemma inv_reach {q0 : List Task} {n : Nat} {s : PState} (hn : 1 ≤ n)
    (h : Reach (init n q0) s) : Inv q0 s := by
  induction h with
  | refl => exact inv_init hn
  | tail _ hbc ih => exact inv_step ih hbc

/-- **C1.** For every sequence of `add_task` calls with distinct task
identities followed by running the pool (any positive number of workers,
any interleaving), once every worker context has exited: each submitted
task's `on_execute` was invoked exactly once and its `on_complete` exactly
once, and every worker's own subtrace consists of `on_execute` events each
immediately followed by the matching `on_complete` on that same worker —
so no task is executed twice or skipped. -/
theorem tasks_run_exactly_once_when_drained
    {n : Nat} {q0 : List Task} {s : PState}
    (hn : 1 ≤ n) (hnd : q0.Nodup) (hr : Reach (init n q0) s)
    (hterm : ∀ c ∈ s.ctxs, c = Ctx.done) :
    ∀ t ∈ q0, execCount t s.events = 1 ∧ complCount t s.events = 1 ∧
      ∀ w c, s.ctxs[w]? = some c →
        ∃ ps, s.events.filter (byWorker w) = pairSeq ps := by
  obtain ⟨hc, hb, hp, hdr⟩ := inv_reach hn hr
  intro t ht
  have hq : s.queue = [] := hdr hterm
  have h1 : s.ctxs.countP (owesExec t) = 0 := by
    rw [List.countP_eq_zero]
    intro c hcm
    rw [hterm c hcm]
    simp [owesExec]
  have h2 : s.ctxs.countP (owesCompl t) = 0 := by
    rw [List.countP_eq_zero]
    intro c hcm
    rw [hterm c hcm]
    simp [owesCompl]
  have hcount : q0.count t = 1 := List.count_eq_one_of_mem hnd ht
  have e0 := hc t
  rw [hq, h1, hcount] at e0
  simp only [List.count_nil, Nat.zero_add, Nat.add_zero] at e0
  have e1 := hb t
  rw [h2, Nat.add_zero] at e1
  refine ⟨e0, by omega, ?_⟩
  intro w c hwc
  have hwf := hp w c hwc
  rw [hterm c (mem_of_get_some hwc)] at hwf
  rw [workerWF_plain done_ne_finish] at hwf
  exact hwf

/-- Two concrete distinct tasks used by the witnesses. -/
def sampleA : Task := ⟨0, 0⟩

/-- A second concrete task, with a distinct reference identity. -/
def sampleB : Task := ⟨1, 1⟩

/-- The trace of a one-worker run of the queue `[sampleA, sampleB]`. -/
def sampleTrace : List Event :=
  [.exec 0 sampleA, .compl 0 sampleA, .exec 0 sampleB, .compl 0 sampleB]

/-- The fully drained final state of that run. -/
def sampleFinal : PState := ⟨[], [Ctx.done], sampleTrace⟩

lemma sample_reach : Reach (init 1 [sampleA, sampleB]) sampleFinal := by
  have s0 : Reach (init 1 [sampleA, sampleB]) (init 1 [sampleA, sampleB]) :=
    Relation.ReflTransGen.refl
  have s1 := Relation.ReflTransGen.tail s0 (Step.poll _ 0 rfl rfl)
  have s2 :=
    Relation.ReflTransGen.tail s1 (Step.deqSome _ 0 sampleA [sampleB] rfl rfl)
  have s3 := Relation.ReflTransGen.tail s2 (Step.execTask _ 0 sampleA rfl)
  have s4 := Relation.ReflTransGen.tail s3 (Step.complTask _ 0 sampleA rfl)
  have s5 := Relation.ReflTransGen.tail s4 (Step.poll _ 0 rfl rfl)
  have s6 :=
    Relation.ReflTransGen.tail s5 (Step.deqSome _ 0 sampleB [] rfl rfl)
  have s7 := Relation.ReflTransGen.tail s6 (Step.execTask _ 0 sampleB rfl)
  have s8 := Relation.ReflTransGen.tail s7 (Step.complTask _ 0 sampleB rfl)
  exact Relation.ReflTransGen.tail s8 (Step.exit _ 0 rfl rfl)

/-- Witness for C1 on a concrete two-task, one-worker run. -/
theorem tasks_run_exactly_once_when_drained_witness :
    (execCount sampleA sampleFinal.events = 1 ∧
      complCount sampleA sampleFinal.events = 1) ∧
    (execCount sampleB sampleFinal.events = 1 ∧
      complCount sampleB sampleFinal.events = 1) ∧
    ∃ ps, sampleFinal.events.filter (byWorker 0) = pairSeq ps := by
  have h := tasks_run_exactly_once_when_drained (by decide) (by decide)
    sample_reach (by decide)
  have ha := h sampleA (by decide)
  have hb := h sampleB (by decide)
  exact ⟨⟨ha.1, ha.2.1⟩, ⟨hb.1, hb.2.1⟩, ha.2.2 0 Ctx.done rfl⟩

/-! ### Single-worker runs: FIFO order -/

/-- Invariant of a run with exactly one worker context: the trace is the
pair sequence of a prefix `p` of the submitted queue (plus a dangling
`exec` while the worker sits between the two task calls), and the untouched
suffix of `q0` is still queued, in order. -/
def swInv (q0 : List Task) (s : PState) : Prop :=
  ∃ (p : List Task) (c : Ctx), s.ctxs = [c] ∧
    match c with
    | .run t => q0 = p ++ t :: s.queue ∧
        s.events = pairSeq (p.map fun u => (0, u))
    | .finish t => q0 = p ++ t :: s.queue ∧
        s.events = pairSeq (p.map fun u => (0, u)) ++ [.exec 0 t]
    | _ => q0 = p ++ s.queue ∧
        s.events = pairSeq (p.map fun u => (0, u))

lemma singleton_get {α : Type} {c c0 : α} {w : Nat}
    (h : ([c] : List α)[w]? = some c0) : w = 0 ∧ c = c0 := by
  cases w with
  | zero => exact ⟨rfl, by simpa using h⟩
  | succ k => simp at h

lemma swInv_init (q0 : List Task) : swInv q0 (init 1 q0) :=
  ⟨[], .check, rfl, (List.nil_append q0).symm, rfl⟩

lemma swInv_step {q0 : List Task} {s s' : PState} (hs : swInv q0 s)
    (hst : Step s s') : swInv q0 s' := by
  obtain ⟨p, c, hcs, hrest⟩ := hs
  cases hst with
  | exit w h he =>
      rw [hcs] at h
      obtain ⟨hw, hcc⟩ := singleton_get h
      subst hw hcc
      exact ⟨p, .done, by rw [hcs]; rfl, hrest⟩
  | poll w h he =>
      rw [hcs] at h
      obtain ⟨hw, hcc⟩ := singleton_get h
      subst hw hcc
      exact ⟨p, .tryDeq, by rw [hcs]; rfl, hrest⟩
  | deqSome w t rest h hd =>
      rw [hcs] at h
      obtain ⟨hw, hcc⟩ := singleton_get h
      subst hw hcc
      have hq : s.queue = t :: rest := dequeue_eq_some hd
      refine ⟨p, .run t, by rw [hcs]; rfl, ?_, hrest.2⟩
      rw [← hq]
      exact hrest.1
  | deqNone w h hd =>
      rw [hcs] at h
      obtain ⟨hw, hcc⟩ := singleton_get h
      subst hw hcc
      exact ⟨p, .check, by rw [hcs]; rfl, hrest⟩
  | execTask w t h =>
      rw [hcs] at h
      obtain ⟨hw, hcc⟩ := singleton_get h
      subst hw hcc
      refine ⟨p, .finish t, by rw [hcs]; rfl, hrest.1, ?_⟩
      rw [hrest.2]
  | complTask w t h =>
      rw [hcs] at h
      obtain ⟨hw, hcc⟩ := singleton_get h
      subst hw hcc
      refine ⟨p ++ [t], .check, by rw [hcs]; rfl, ?_, ?_⟩
      · rw [hrest.1]
        simp
      · show s.events ++ [Event.compl 0 t]
            = pairSeq ((p ++ [t]).map fun u => (0, u))
        rw [hrest.2]
        simp [pairSeq_append, pairSeq]

lemma swInv_reach {q0 : List Task} {s : PState}
    (h : Reach (init 1 q0) s) : swInv q0 s := by
  induction h with
  | refl => exact swInv_init q0
  | tail _ hbc ih => exact swInv_step ih hbc

/-- In a duplicate-free list, splitting at an element is unique. -/
lemma nodup_append_cons_inj {α : Type} {x : α} :
    ∀ (u1 v1 u2 v2 : List α), (u1 ++ x :: v1).Nodup →
      u1 ++ x :: v1 = u2 ++ x :: v2 → u1 = u2 := by
  intro u1
  induction u1 with
  | nil =>
      intro v1 u2 v2 hn he
      cases u2 with
      | nil => rfl
      | cons y u2 =>
          simp only [List.nil_append, List.cons_append, List.cons.injEq] at he
          obtain ⟨h1, h2⟩ := he
          rw [List.nil_append, List.nodup_cons] at hn
          have hxm : x ∈ v1 := by
            rw [h2]
            exact List.mem_append_right u2 (h1 ▸ List.mem_cons_self x v2)
          exact absurd hxm hn.1
  | cons y u1 ih =>
      intro v1 u2 v2 hn he
      cases u2 with
      | nil =>
          simp only [List.cons_append, List.nil_append, List.cons.injEq] at he
          obtain ⟨h1, h2⟩ := he
          rw [List.cons_append, List.nodup_cons] at hn
          have hxm : x ∈ u1 ++ x :: v1 :=
            List.mem_append_right u1 (List.mem_cons_self x v1)
          exact absurd hxm (h1 ▸ hn.1)
      | cons z u2 =>
          simp only [List.cons_append, List.cons.injEq] at he
          obtain ⟨h1, h2⟩ := he
          rw [List.cons_append, List.nodup_cons] at hn
          rw [h1, ih v1 u2 v2 hn.2 h2]

lemma exec_mem_pairSeq_map {w : Nat} {t : Task} {p : List Task}
    (h : Event.exec w t ∈ pairSeq (p.map fun u => (w, u))) : t ∈ p := by
  simp only [pairSeq, List.mem_flatMap, List.mem_map] at h
  obtain ⟨pr, ⟨u, hu, rfl⟩, hev⟩ := h
  simp at hev
  rw [hev]
  exact hu

lemma mem_pairSeq_exec {t : Task} {p : List Task} (h : t ∈ p) (w : Nat) :
    Event.exec w t ∈ pairSeq (p.map fun u => (w, u)) := by
  simp only [pairSeq, List.mem_flatMap, List.mem_map]
  exact ⟨(w, t), ⟨t, h, rfl⟩, by simp⟩

lemma mem_pairSeq_compl {t : Task} {p : List Task} (h : t ∈ p) (w : Nat) :
    Event.compl w t ∈ pairSeq (p.map fun u => (w, u)) := by
  simp only [pairSeq, List.mem_flatMap, List.mem_map]
  exact ⟨(w, t), ⟨t, h, rfl⟩, by simp⟩

lemma fifo_core {q0 p suffix : List Task} {xs ys zs : List Task} {a b : Task}
    (hq : q0 = xs ++ a :: (ys ++ b :: zs)) (hnd : q0.Nodup)
    (hps : q0 = p ++ suffix) (hbp : b ∈ p) (tl : List Event) :
    ∃ l1 l2, pairSeq (p.map fun u => (0, u)) ++ tl
        = l1 ++ Event.exec 0 b :: l2 ∧
      Event.exec 0 a ∈ l1 ∧ Event.compl 0 a ∈ l1 := by
  obtain ⟨p1, p2, rfl⟩ := List.append_of_mem hbp
  have hnd' : (p1 ++ b :: (p2 ++ suffix)).Nodup := by
    have : q0 = p1 ++ b :: (p2 ++ suffix) := by rw [hps]; simp
    rw [← this]
    exact hnd
  have heq : p1 ++ b :: (p2 ++ suffix) = (xs ++ a :: ys) ++ b :: zs := by
    have h1 : q0 = p1 ++ b :: (p2 ++ suffix) := by rw [hps]; simp
    rw [← h1, hq]
    simp
  have hp1 : p1 = xs ++ a :: ys :=
    nodup_append_cons_inj p1 (p2 ++ suffix) (xs ++ a :: ys) zs hnd' heq
  have hap1 : a ∈ p1 := by
    rw [hp1]
    exact List.mem_append_right xs (List.mem_cons_self a ys)
  refine ⟨pairSeq (p1.map fun u => (0, u)),
    Event.compl 0 b :: (pairSeq (p2.map fun u => (0, u)) ++ tl), ?_,
    mem_pairSeq_exec hap1 0, mem_pairSeq_compl hap1 0⟩
  simp [pairSeq, List.map_append]

/-- **C2.** `dequeue` atomically removes and returns the head of the queue,
and runs are FIFO: for two never-cancelled tasks `a` then `b` submitted to
an idle pool with exactly one worker, `a`'s `on_execute` (one atomic event
here, so its completion coincides with it) and `a`'s `on_complete` both
occur strictly before `b`'s `on_execute` in the trace. -/
theorem fifo_single_worker
    {q0 : List Task} {s : PState} {xs ys zs : List Task} {a b : Task}
    (hq : q0 = xs ++ a :: (ys ++ b :: zs)) (hnd : q0.Nodup)
    (hr : Reach (init 1 q0) s)
    (hbmem : Event.exec 0 b ∈ s.events) :
    (∀ q, dequeue q = (q.head?, q.tail)) ∧
    ∃ l1 l2, s.events = l1 ++ Event.exec 0 b :: l2 ∧
      Event.exec 0 a ∈ l1 ∧ Event.compl 0 a ∈ l1 := by
  refine ⟨dequeue_head_tail, ?_⟩
  obtain ⟨p, c, hcs, hrest⟩ := swInv_reach hr
  cases c with
  | check =>
      obtain ⟨hps, hev⟩ := hrest
      rw [hev] at hbmem ⊢
      have := fifo_core hq hnd hps (exec_mem_pairSeq_map hbmem) []
      simpa using this
  | tryDeq =>
      obtain ⟨hps, hev⟩ := hrest
      rw [hev] at hbmem ⊢
      have := fifo_core hq hnd hps (exec_mem_pairSeq_map hbmem) []
      simpa using this
  | done =>
      obtain ⟨hps, hev⟩ := hrest
      rw [hev] at hbmem ⊢
      have := fifo_core hq hnd hps (exec_mem_pairSeq_map hbmem) []
      simpa using this
  | run t =>
      obtain ⟨hps, hev⟩ := hrest
      rw [hev] at hbmem ⊢
      have := fifo_core hq hnd hps (exec_mem_pairSeq_map hbmem) []
      simpa using this
  | finish t =>
      obtain ⟨hps, hev⟩ := hrest
      rw [hev] at hbmem ⊢
      rcases List.mem_append.mp hbmem with hin | hlast
      · exact fifo_core hq hnd hps (exec_mem_pairSeq_map hin) [Event.exec 0 t]
      · have htb : t = b := by
          simp at hlast
          exact hlast.symm
        subst htb
        have hnd' : (p ++ t :: s.queue).Nodup := by rw [← hps]; exact hnd
        have heq : p ++ t :: s.queue = (xs ++ a :: ys) ++ t :: zs := by
          rw [← hps, hq]
          simp
        have hp1 : p = xs ++ a :: ys :=
          nodup_append_cons_inj p s.queue (xs ++ a :: ys) zs hnd' heq
        have hap : a ∈ p := by
          rw [hp1]
          exact List.mem_append_right xs (List.mem_cons_self a ys)
        exact ⟨pairSeq (p.map fun u => (0, u)), [], rfl,
          mem_pairSeq_exec hap 0, mem_pairSeq_compl hap 0⟩

/-- Witness for C2: the drained two-task one-worker run, with `a = sampleA`
and `b = sampleB`. -/
theorem fifo_single_worker_witness :
    (∀ q, dequeue q = (q.head?, q.tail)) ∧
    ∃ l1 l2, sampleFinal.events = l1 ++ Event.exec 0 sampleB :: l2 ∧
      Event.exec 0 sampleA ∈ l1 ∧ Event.compl 0 sampleA ∈ l1 :=
  @fifo_single_worker [sampleA, sampleB] sampleFinal [] [] [] sampleA sampleB
    rfl (by decide) sample_reach (by decide)

/-! ### C4: the at-most-once queue invariant -/

/-- **C4 (counterexample).** `enqueue` performs no duplicate check: the
operation sequence `[enq sampleA, enq sampleA]` from the empty queue — a
sequence the claim covers, since it includes enqueueing a reference already
present — produces a queue holding the same task reference twice. -/
theorem enqueue_present_reference_duplicates :
    ¬ atMostOnce (applyOps [] [QOp.enq sampleA, QOp.enq sampleA]) := by
  show ¬ (ids (applyOps [] [QOp.enq sampleA, QOp.enq sampleA])).Nodup
  decide

lemma atMostOnce_applyOp {q : List Task} {op : QOp}
    (hq : atMostOnce q) (hv : opOk q op = true) :
    atMostOnce (applyOp q op) := by
  cases op with
  | enq t =>
      have hid : t.id ∉ ids q := by
        simp [opOk] at hv
        simpa [ids] using hv
      show ((q ++ [t]).map Task.id).Nodup
      rw [List.map_append]
      simp [List.nodup_append]
      exact ⟨hq, by simpa [ids] using hid⟩
  | deq =>
      cases q with
      | nil => exact hq
      | cons a l =>
          show atMostOnce l
          exact (List.nodup_cons.mp hq).2
  | ers t =>
      have hsub : List.Sublist (ids (erase q t)) (ids q) :=
        (List.filter_sublist q).map Task.id
      exact hq.sublist hsub
  | clr =>
      show ([] : List Task).map Task.id |>.Nodup
      simp

lemma atMostOnce_applyOps :
    ∀ (ops : List QOp) (q : List Task), atMostOnce q →
      validOps q ops = true → atMostOnce (applyOps q ops)
  | [], _, hq, _ => hq
  | op :: rest, q, hq, hv => by
      rw [validOps, Bool.and_eq_true] at hv
      exact atMostOnce_applyOps rest (applyOp q op)
        (atMostOnce_applyOp hq hv.1) hv.2

/-- **C4 (amended).** The at-most-once invariant holds in every queue state
reachable by enqueue/dequeue/erase/clear from the empty queue **provided**
no `enqueue` inserts a reference already present; the code itself never
deduplicates, so enqueueing a present reference (see the counterexample)
makes it appear twice. -/
theorem at_most_once_under_fresh_enqueues (ops : List QOp)
    (hv : validOps [] ops = true) : atMostOnce (applyOps [] ops) :=
  atMostOnce_applyOps ops [] (by show ([] : List Nat).Nodup; simp) hv

/-- Witness for C4 (amended) on a concrete disciplined operation sequence
that dequeues, erases, clears and re-enqueues. -/
theorem at_most_once_under_fresh_enqueues_witness :
    validOps [] [QOp.enq sampleA, QOp.enq sampleB, QOp.deq, QOp.ers sampleB,
      QOp.clr, QOp.enq sampleA] = true ∧
    atMostOnce (applyOps [] [QOp.enq sampleA, QOp.enq sampleB, QOp.deq,
      QOp.ers sampleB, QOp.clr, QOp.enq sampleA]) :=
  ⟨by decide, at_most_once_under_fresh_enqueues _ (by decide)⟩

/-! ### C5: cancellation before dequeue is reliable -/

/-- The task `t` is nowhere in flight: not queued, not held by any context,
and never executed so far. -/
def neverHeld (t : Task) (s : PState) : Prop :=
  t ∉ s.queue ∧
  (∀ c ∈ s.ctxs, owesExec t c = false ∧ owesCompl t c = false) ∧
  execCount t s.events = 0

lemma neverHeld_step {t : Task} {s s' : PState} (hs : neverHeld t s)
    (hst : Step s s') : neverHeld t s' := by
  obtain ⟨hq, hctx, hev⟩ := hs
  cases hst with
  | exit w h he =>
      refine ⟨hq, ?_, hev⟩
      intro c hc
      rcases List.mem_or_eq_of_mem_set hc with hmem | rfl
      · exact hctx c hmem
      · exact ⟨rfl, rfl⟩
  | poll w h he =>
      refine ⟨hq, ?_, hev⟩
      intro c hc
      rcases List.mem_or_eq_of_mem_set hc with hmem | rfl
      · exact hctx c hmem
      · exact ⟨rfl, rfl⟩
  | deqSome w u rest h hd =>
      have hqq : s.queue = u :: rest := dequeue_eq_some hd
      rw [hqq] at hq
      have hne : u ≠ t := fun hh => hq (hh ▸ List.mem_cons_self u rest)
      refine ⟨fun hh => hq (List.mem_cons_of_mem u hh), ?_, hev⟩
      intro c hc
      rcases List.mem_or_eq_of_mem_set hc with hmem | rfl
      · exact hctx c hmem
      · constructor
        · show (u == t) = false
          simp [hne]
        · rfl
  | deqNone w h hd =>
      refine ⟨hq, ?_, hev⟩
      intro c hc
      rcases List.mem_or_eq_of_mem_set hc with hmem | rfl
      · exact hctx c hmem
      · exact ⟨rfl, rfl⟩
  | execTask w u h =>
      have hu : owesExec t (Ctx.run u) = false :=
        (hctx _ (mem_of_get_some h)).1
      have hne : u ≠ t := by
        intro hh
        rw [show owesExec t (Ctx.run u) = (u == t) from rfl] at hu
        simp [hh] at hu
      refine ⟨hq, ?_, ?_⟩
      · intro c hc
        rcases List.mem_or_eq_of_mem_set hc with hmem | rfl
        · exact hctx c hmem
        · constructor
          · rfl
          · show (u == t) = false
            simp [hne]
      · rw [execCount_append_exec, if_neg hne, Nat.add_zero]
        exact hev
  | complTask w u h =>
      refine ⟨hq, ?_, ?_⟩
      · intro c hc
        rcases List.mem_or_eq_of_mem_set hc with hmem | rfl
        · exact hctx c hmem
        · exact ⟨rfl, rfl⟩
      · rw [execCount_append_compl]
        exact hev

lemma neverHeld_reach {t : Task} {s s' : PState} (hs : neverHeld t s)
    (hr : Reach s s') : neverHeld t s' := by
  induction hr with
  | refl => exact hs
  | tail _ hbc ih => exact neverHeld_step ih hbc

/-- **C5.** If `cancel_task(t)` runs while `t` is still queued and no
worker has dequeued it (no context holds it, no `on_execute` for it has
occurred), then the `erase` removes `t` from the queue and in every state
the workers can subsequently reach, `t.on_execute()` has still never been
invoked. -/
theorem cancelled_task_never_executes
    {s : PState} {t : Task} (_hin : t ∈ s.queue)
    (hctx : ∀ c ∈ s.ctxs, owesExec t c = false ∧ owesCompl t c = false)
    (hev : execCount t s.events = 0)
    {s' : PState}
    (hr : Reach ⟨erase s.queue t, s.ctxs, s.events⟩ s') :
    t ∉ erase s.queue t ∧ execCount t s'.events = 0 := by
  have h0 : neverHeld t ⟨erase s.queue t, s.ctxs, s.events⟩ :=
    ⟨erase_not_mem s.queue t, hctx, hev⟩
  exact ⟨erase_not_mem s.queue t, (neverHeld_reach h0 hr).2.2⟩

/-- Witness for C5: cancel `sampleA` out of a one-task queue, then let the
single worker run; it observes an empty queue and exits without any call. -/
theorem cancelled_task_never_executes_witness :
    sampleA ∉ erase [sampleA] sampleA ∧
    execCount sampleA (PState.mk [] [Ctx.done] []).events = 0 :=
  cancelled_task_never_executes (s := ⟨[sampleA], [Ctx.check], []⟩)
    (by decide) (by decide) (by decide)
    (Relation.ReflTransGen.tail Relation.ReflTransGen.refl
      (Step.exit _ 0 rfl rfl))

/-! ### `ThreadExecutor` / `ThreadPool` control-plane operations -/

/-- The `JoinHandle` held in `ThreadExecutor::thread`; `finished` records
whether the spawned context's `_execute` loop has exited (`Ctx.done` in the
step semantics). -/
structure Handle where
  finished : Bool
deriving DecidableEq, Repr

/-- The lifecycle fields of `ThreadExecutor` (`task_pool` is the shared
queue, modelled separately; `current_running_task` is only read by the
effect-free cancel body). -/
structure ThreadExecutor where
  thread : Option Handle
  stopping : Bool
deriving DecidableEq, Repr

namespace ThreadExecutor

/-- `ThreadExecutor::new`. -/
def new : ThreadExecutor := ⟨none, false⟩

/-- `ThreadExecutor::execute`: spawns a context only when `self.thread` is
`None`.  Returns the updated executor and whether a context was spawned; a
fresh context starts with its loop not yet exited. -/
def execute (e : ThreadExecutor) : ThreadExecutor × Bool :=
  match e.thread with
  | none => ({ e with thread := some ⟨false⟩ }, true)
  | some _ => (e, false)

/-- `ThreadExecutor::terminate`: `if let Some(thread) = self.thread.take()`,
set `stopping`, `thread.join()`, clear `stopping`.  `join` returns only once
the spawned context has exited, so the model yields a result exactly when
the handle's context has finished (or there is no handle). -/
def terminate (e : ThreadExecutor) : Option ThreadExecutor :=
  match e.thread with
  | none => some e
  | some h => if h.finished then some ⟨none, false⟩ else none

/-- `ThreadExecutor::cancel_task_if_running`: its body only compares the
current task's identity and performs no effect. -/
def cancel_task_if_running (e : ThreadExecutor) (_t : Task) : ThreadExecutor :=
  e

end ThreadExecutor

/-- The fields of `ThreadPool`: worker bound, shared queue, executors. -/
structure ThreadPool where
  max_threads : Nat
  queue : List Task
  threads : List ThreadExecutor
deriving DecidableEq, Repr

namespace ThreadPool

/-- `ThreadPool::new`: `num_threads` fresh executors, empty queue. -/
def new (num_threads : Nat) : ThreadPool :=
  ⟨num_threads, [], List.replicate num_threads ThreadExecutor.new⟩

/-- `ThreadPool::add_task`: enqueue unconditionally. -/
def add_task (p : ThreadPool) (t : Task) : ThreadPool :=
  { p with queue := enqueue p.queue t }

/-- `ThreadPool::cancel_task`: erase from the queue, then ask every executor
to check its current task (an effect-free body). -/
def cancel_task (p : ThreadPool) (t : Task) : ThreadPool :=
  { p with queue := erase p.queue t,
           threads := p.threads.map fun e => e.cancel_task_if_running t }

/-- `ThreadPool::execute`: call `execute` on every executor in order; also
report how many contexts this call spawned. -/
def execute (p : ThreadPool) : ThreadPool × Nat :=
  ({ p with threads := p.threads.map fun e => e.execute.1 },
    (p.threads.filter fun e => e.execute.2).length)

/-- Join every executor in order (`ThreadExecutor::terminate` on each). -/
def joinAll : List ThreadExecutor → Option (List ThreadExecutor)
  | [] => some []
  | e :: es =>
      match e.terminate with
      | none => none
      | some e' =>
          match joinAll es with
          | none => none
          | some es' => some (e' :: es')

/-- `ThreadPool::terminate`: join every executor; returns only when every
join has returned. -/
def terminate (p : ThreadPool) : Option ThreadPool :=
  match joinAll p.threads with
  | none => none
  | some ths => some { p with threads := ths }

end ThreadPool

/-! ### Cooperative model (`taskmanager_async`) -/

/-- One spawned fire-and-forget job (`tokio::spawn`), which runs
`task.on_execute(); task.on_complete()` and then ends. -/
inductive Job where
  | pending (t : Task)
  | midway (t : Task)
  | finished (t : Task)
deriving DecidableEq, Repr

/-- Program counter of the `AsyncThreadPool::execute` loop. -/
inductive LoopCtx where
  | check
  | tryDeq
  | exited
deriving DecidableEq, Repr

/-- Global state of the cooperative model: the shared queue, the `execute`
loop's pc, the dispatched jobs, and the trace (tagged with job indices). -/
structure AState where
  queue : List Task
  loopc : LoopCtx
  jobs : List Job
  events : List Event
deriving DecidableEq, Repr

/-- Interleaved semantics of `AsyncThreadPool::execute` and the jobs it
spawns: the loop tests `is_empty`, dequeues and dispatches one job per
task, yields when a dequeue returns nothing after a non-empty test, and the
`while` loop returns once it observes an empty queue; dispatched jobs run
independently of the loop. -/
inductive AStep : AState → AState → Prop where
  | exitLoop (s : AState) (h : s.loopc = .check)
      (he : is_empty s.queue = true) :
      AStep s ⟨s.queue, .exited, s.jobs, s.events⟩
  | poll (s : AState) (h : s.loopc = .check)
      (he : is_empty s.queue = false) :
      AStep s ⟨s.queue, .tryDeq, s.jobs, s.events⟩
  | deqSpawn (s : AState) (t : Task) (rest : List Task)
      (h : s.loopc = .tryDeq) (hd : dequeue s.queue = (some t, rest)) :
      AStep s ⟨rest, .check, s.jobs ++ [.pending t], s.events⟩
  | deqYield (s : AState) (h : s.loopc = .tryDeq)
      (hd : (dequeue s.queue).1 = none) :
      AStep s ⟨s.queue, .check, s.jobs, s.events⟩
  | jobExec (s : AState) (j : Nat) (t : Task)
      (h : s.jobs[j]? = some (.pending t)) :
      AStep s
        ⟨s.queue, s.loopc, s.jobs.set j (.midway t), s.events ++ [.exec j t]⟩
  | jobCompl (s : AState) (j : Nat) (t : Task)
      (h : s.jobs[j]? = some (.midway t)) :
      AStep s
        ⟨s.queue, s.loopc, s.jobs.set j (.finished t),
          s.events ++ [.compl j t]⟩

/-- `AsyncThreadPool::add_task` (delegates to `enqueue`). -/
def async_add_task (s : AState) (t : Task) : AState :=
  { s with queue := enqueue s.queue t }

/-- `AsyncThreadPool::cancel_task` (delegates to `erase`). -/
def async_cancel_task (s : AState) (t : Task) : AState :=
  { s with queue := erase s.queue t }

/-- `AsyncThreadPool::terminate` (delegates to `clear`): it only empties the
queue. -/
def async_terminate (s : AState) : AState :=
  { s with queue := clear s.queue }

/-! ### C3: when `execute` (re)starts a worker -/

/-- **C3 (counterexample).** An executor whose spawned loop has exited —
so no context of its is currently running — but whose handle was never
joined: `execute` checks only `self.thread.is_none()`, finds the stale
handle, and spawns nothing.  This refutes the claim that a later
`execute()` restarts every worker with no context currently running. -/
theorem execute_skips_unjoined_drained_worker :
    ¬ (∀ e : ThreadExecutor,
        (∀ h, e.thread = some h → h.finished = true) →
        (ThreadExecutor.execute e).2 = true) := by
  intro hall
  have h1 := hall ⟨some ⟨true⟩, false⟩ (by
    intro h hh
    injection hh with hh2
    rw [← hh2])
  simp [ThreadExecutor.execute] at h1

lemma executor_execute_idem (e : ThreadExecutor) :
    ThreadExecutor.execute e.execute.1 = (e.execute.1, false) := by
  cases he : e.thread <;> simp [ThreadExecutor.execute, he]

/-- **C3 (amended).** `ThreadPool::execute` spawns a context exactly for
the workers holding no handle (never started, or already joined via
`terminate`); a worker already holding a handle — running **or** drained
but unjoined — is left untouched.  Hence repeated calls never duplicate a
running context, and an immediately repeated call changes nothing and
spawns zero contexts. -/
theorem pool_execute_spawns_iff_no_handle (p : ThreadPool) :
    (∀ (i : Nat) (e : ThreadExecutor), p.threads[i]? = some e →
      ∃ e', (ThreadPool.execute p).1.threads[i]? = some e' ∧
        (e.thread = none → e' = { e with thread := some ⟨false⟩ }) ∧
        (e.thread ≠ none → e' = e)) ∧
    ThreadPool.execute (ThreadPool.execute p).1
      = ((ThreadPool.execute p).1, 0) := by
  constructor
  · intro i e hi
    refine ⟨e.execute.1, ?_, ?_, ?_⟩
    · show (p.threads.map (fun e => e.execute.1))[i]? = some e.execute.1
      rw [List.getElem?_map, hi]
      rfl
    · intro hn
      simp [ThreadExecutor.execute, hn]
    · intro hn
      cases he : e.thread with
      | none => exact absurd he hn
      | some hd => simp [ThreadExecutor.execute, he]
  · have hmapmap : ((p.threads.map (fun e => e.execute.1)).map
        (fun e => e.execute.1)) = p.threads.map (fun e => e.execute.1) := by
      rw [List.map_map]
      apply List.map_congr_left
      intro e _
      show (ThreadExecutor.execute e.execute.1).1 = e.execute.1
      rw [executor_execute_idem]
    have hfilter : ((p.threads.map (fun e => e.execute.1)).filter
        (fun e => e.execute.2)) = [] := by
      rw [List.filter_eq_nil_iff]
      intro e he
      rcases List.mem_map.mp he with ⟨a, _, rfl⟩
      show ¬ ((ThreadExecutor.execute a.execute.1).2 = true)
      rw [executor_execute_idem]
      simp
    show ThreadPool.execute
        ⟨p.max_threads, p.queue, p.threads.map (fun e => e.execute.1)⟩
      = ((⟨p.max_threads, p.queue,
          p.threads.map (fun e => e.execute.1)⟩ : ThreadPool), 0)
    show (((⟨p.max_threads, p.queue,
        (p.threads.map (fun e => e.execute.1)).map
          (fun e => e.execute.1)⟩ : ThreadPool),
      ((p.threads.map (fun e => e.execute.1)).filter
        (fun e => e.execute.2)).length) : ThreadPool × Nat)
      = ((⟨p.max_threads, p.queue,
          p.threads.map (fun e => e.execute.1)⟩ : ThreadPool), 0)
    rw [hmapmap, hfilter]
    rfl

/-- Witness for C3 (amended) on a pool with one never-started worker. -/
theorem pool_execute_spawns_iff_no_handle_witness :
    (∀ (i : Nat) (e : ThreadExecutor), (ThreadPool.new 1).threads[i]? = some e →
      ∃ e', (ThreadPool.execute (ThreadPool.new 1)).1.threads[i]? = some e' ∧
        (e.thread = none → e' = { e with thread := some ⟨false⟩ }) ∧
        (e.thread ≠ none → e' = e)) ∧
    ThreadPool.execute (ThreadPool.execute (ThreadPool.new 1)).1
      = ((ThreadPool.execute (ThreadPool.new 1)).1, 0) :=
  pool_execute_spawns_iff_no_handle (ThreadPool.new 1)

/-! ### C6: cancelling an absent task is a no-op -/

/-- **C6.** For a task reference absent from the queue (never submitted,
already dequeued, or already removed), `cancel_task` leaves the pool
exactly as it was — both in the parallel pool and in the async pool — and
it is a total function, so no error is ever signalled.  Matching uses
reference identity only: the hypothesis constrains identities, never
content, so a queued task with identical content but a different identity
is untouched (see the witness). -/
theorem cancel_absent_task_noop (p : ThreadPool) (t : Task)
    (habs : ∀ x ∈ p.queue, x.id ≠ t.id) :
    ThreadPool.cancel_task p t = p ∧
    (∀ s : AState, s.queue = p.queue → async_cancel_task s t = s) := by
  have he : erase p.queue t = p.queue := erase_eq_self habs
  constructor
  · obtain ⟨m, qq, th⟩ := p
    have he' : erase qq t = qq := he
    show (⟨m, erase qq t,
      th.map (fun e => e.cancel_task_if_running t)⟩ : ThreadPool)
        = ⟨m, qq, th⟩
    rw [ThreadPool.mk.injEq]
    exact ⟨rfl, he', by simp [ThreadExecutor.cancel_task_if_running]⟩
  · intro s hs
    obtain ⟨sq, slc, sj, sev⟩ := s
    have hsq : sq = p.queue := hs
    show (⟨erase sq t, slc, sj, sev⟩ : AState) = ⟨sq, slc, sj, sev⟩
    rw [AState.mk.injEq]
    refine ⟨?_, rfl, rfl, rfl⟩
    rw [hsq]
    exact he

/-- Witness for C6: the queued task `⟨1, 5⟩` and the cancelled task `⟨0, 5⟩`
have identical content but distinct identities; cancellation changes
nothing. -/
theorem cancel_absent_task_noop_witness :
    ThreadPool.cancel_task ⟨1, [⟨1, 5⟩], [ThreadExecutor.new]⟩ ⟨0, 5⟩
        = ⟨1, [⟨1, 5⟩], [ThreadExecutor.new]⟩ ∧
    (∀ s : AState,
      s.queue = (⟨1, [⟨1, 5⟩], [ThreadExecutor.new]⟩ : ThreadPool).queue →
      async_cancel_task s ⟨0, 5⟩ = s) :=
  cancel_absent_task_noop ⟨1, [⟨1, 5⟩], [ThreadExecutor.new]⟩ ⟨0, 5⟩
    (by decide)

/-! ### C7: the parallel terminate joins and leaves the queue alone -/

lemma terminate_thread_none {e e' : ThreadExecutor}
    (h : ThreadExecutor.terminate e = some e') : e'.thread = none := by
  obtain ⟨th, st⟩ := e
  cases th with
  | none => rw [← Option.some_inj.mp h]
  | some hd =>
      by_cases hf : hd.finished = true
      · have h2 : ThreadExecutor.terminate ⟨some hd, st⟩
            = some ⟨none, false⟩ := by
          simp [ThreadExecutor.terminate, hf]
        rw [h2, Option.some_inj] at h
        rw [← h]
      · have h2 : ThreadExecutor.terminate ⟨some hd, st⟩ = none := by
          simp [ThreadExecutor.terminate, hf]
        rw [h2] at h
        cases h

lemma terminate_finished {e e' : ThreadExecutor}
    (h : ThreadExecutor.terminate e = some e') :
    ∀ hd, e.thread = some hd → hd.finished = true := by
  intro hd hthread
  by_cases hf : hd.finished = true
  · exact hf
  · exfalso
    obtain ⟨th, st⟩ := e
    have hth : th = some hd := hthread
    subst hth
    have h2 : ThreadExecutor.terminate ⟨some hd, st⟩ = none := by
      simp [ThreadExecutor.terminate, hf]
    rw [h2] at h
    cases h

lemma joinAll_spec : ∀ {es es' : List ThreadExecutor},
    ThreadPool.joinAll es = some es' →
    (∀ e' ∈ es', e'.thread = none) ∧
    (∀ e ∈ es, ∀ hd, e.thread = some hd → hd.finished = true) := by
  intro es
  induction es with
  | nil =>
      intro es' h
      have h2 : ([] : List ThreadExecutor) = es' := by
        simpa [ThreadPool.joinAll] using h
      subst h2
      exact ⟨fun e' he' => absurd he' (List.not_mem_nil e'),
        fun e he => absurd he (List.not_mem_nil e)⟩
  | cons e es ih =>
      intro es' h
      rw [ThreadPool.joinAll] at h
      cases he : ThreadExecutor.terminate e with
      | none => rw [he] at h; cases h
      | some e1 =>
          rw [he] at h
          cases hj : ThreadPool.joinAll es with
          | none => rw [hj] at h; cases h
          | some es1 =>
              rw [hj] at h
              simp at h
              obtain ⟨ih1, ih2⟩ := ih hj
              constructor
              · intro e' he'
                rw [← h] at he'
                rcases List.mem_cons.mp he' with rfl | hmem
                · exact terminate_thread_none he
                · exact ih1 e' hmem
              · intro e2 he2 hd hsome
                rcases List.mem_cons.mp he2 with rfl | hmem
                · exact terminate_finished he hd hsome
                · exact ih2 e2 hmem hd hsome

/-- **C7.** `ThreadPool::terminate` returns only after every worker's
context has exited (every held handle was finished when it was joined, and
afterwards no worker holds a context), and its own effect leaves the
queue's contents unchanged: queued-but-undispatched tasks are not dropped
by `terminate`. -/
theorem terminate_joins_all_preserves_queue
    {p p' : ThreadPool} (h : ThreadPool.terminate p = some p') :
    p'.queue = p.queue ∧
    (∀ e' ∈ p'.threads, e'.thread = none) ∧
    (∀ e ∈ p.threads, ∀ hd, e.thread = some hd → hd.finished = true) := by
  unfold ThreadPool.terminate at h
  cases hj : ThreadPool.joinAll p.threads with
  | none => rw [hj] at h; cases h
  | some ths =>
      rw [hj] at h
      simp at h
      obtain ⟨h1, h2⟩ := joinAll_spec hj
      rw [← h]
      exact ⟨rfl, h1, h2⟩

/-- Witness for C7: a pool holding one queued task and one worker whose
context has exited; terminate joins it and the task stays queued. -/
theorem terminate_joins_all_preserves_queue_witness :
    (⟨1, [sampleA], [⟨none, false⟩]⟩ : ThreadPool).queue
        = (⟨1, [sampleA], [⟨some ⟨true⟩, false⟩]⟩ : ThreadPool).queue ∧
    (∀ e' ∈ (⟨1, [sampleA], [⟨none, false⟩]⟩ : ThreadPool).threads,
      e'.thread = none) ∧
    (∀ e ∈ (⟨1, [sampleA], [⟨some ⟨true⟩, false⟩]⟩ : ThreadPool).threads,
      ∀ hd, e.thread = some hd → hd.finished = true) :=
  terminate_joins_all_preserves_queue
    (p := ⟨1, [sampleA], [⟨some ⟨true⟩, false⟩]⟩) (by rfl)

/-! ### C8 and C9: the cooperative pool -/

/-- **C8.** `AsyncThreadPool::terminate` empties the queue and nothing
else: jobs already dispatched and the trace are untouched, and a
previously dispatched (still pending) job can still take its `on_execute`
step after `terminate` returns — terminate does not wait for it. -/
theorem async_terminate_clears_queue_only (s : AState) (j : Nat) (t : Task)
    (hj : s.jobs[j]? = some (Job.pending t)) :
    (async_terminate s).queue = [] ∧
    (async_terminate s).jobs = s.jobs ∧
    (async_terminate s).events = s.events ∧
    AStep (async_terminate s)
      ⟨[], s.loopc, s.jobs.set j (Job.midway t),
        s.events ++ [Event.exec j t]⟩ :=
  ⟨rfl, rfl, rfl, AStep.jobExec (async_terminate s) j t hj⟩

/-- Witness for C8: terminate with one pending dispatched job. -/
theorem async_terminate_clears_queue_only_witness :
    (async_terminate ⟨[sampleA], .check, [Job.pending sampleB], []⟩).queue
        = [] ∧
    (async_terminate ⟨[sampleA], .check, [Job.pending sampleB], []⟩).jobs
        = [Job.pending sampleB] ∧
    (async_terminate ⟨[sampleA], .check, [Job.pending sampleB], []⟩).events
        = [] ∧
    AStep (async_terminate ⟨[sampleA], .check, [Job.pending sampleB], []⟩)
      ⟨[], .check, [Job.pending sampleB].set 0 (Job.midway sampleB),
        [] ++ [Event.exec 0 sampleB]⟩ :=
  async_terminate_clears_queue_only
    ⟨[sampleA], .check, [Job.pending sampleB], []⟩ 0 sampleB rfl

/-- **C9 (counterexample).** The `AsyncThreadPool::execute` loop exits as
soon as its `while !is_empty()` test observes an empty queue — here the
concrete loop state on an empty queue steps directly to `exited`.  The
source has no termination signal at all (nothing else is true of this
state), refuting the claim that the loop keeps running until a termination
signal is set and does not exit merely because the queue is empty. -/
theorem async_execute_exits_when_queue_empty :
    AStep ⟨[], LoopCtx.check, [], []⟩ ⟨[], LoopCtx.exited, [], []⟩ :=
  AStep.exitLoop _ rfl rfl

/-- **C9 (amended).** The cooperative `execute` loop dequeues one task at a
time, dispatching each as one appended fire-and-forget job and immediately
continuing; it yields (without exiting) when a dequeue returns nothing
after a non-empty test; it exits exactly when the `while` test observes an
empty queue — there is no termination signal; and dispatched jobs run
independently, never touching the queue or the loop. -/
theorem async_loop_dispatch_behavior {s s' : AState} (h : AStep s s') :
    (s'.loopc = LoopCtx.exited → s.loopc ≠ LoopCtx.exited →
      s.loopc = LoopCtx.check ∧ s.queue = []) ∧
    (s.loopc = LoopCtx.tryDeq → s'.loopc ≠ LoopCtx.exited) ∧
    (s'.jobs.length ≠ s.jobs.length →
      ∃ t, dequeue s.queue = (some t, s'.queue) ∧
        s'.jobs = s.jobs ++ [Job.pending t] ∧ s'.loopc = LoopCtx.check) ∧
    (s'.events.length ≠ s.events.length →
      s'.queue = s.queue ∧ s'.loopc = s.loopc) := by
  cases h with
  | exitLoop h he =>
      refine ⟨fun _ _ => ⟨h, is_empty_iff.mp he⟩, ?_, ?_, ?_⟩
      · intro ht
        exact absurd (h.symm.trans ht) (fun hh => LoopCtx.noConfusion hh)
      · intro hne
        exact absurd rfl hne
      · intro hne
        exact absurd rfl hne
  | poll h he =>
      refine ⟨?_, ?_, ?_, ?_⟩
      · intro h'
        exact absurd h' (fun hh => LoopCtx.noConfusion hh)
      · intro _ hh
        exact LoopCtx.noConfusion hh
      · intro hne
        exact absurd rfl hne
      · intro hne
        exact absurd rfl hne
  | deqSpawn t rest h hd =>
      refine ⟨?_, ?_, ?_, ?_⟩
      · intro h'
        exact absurd h' (fun hh => LoopCtx.noConfusion hh)
      · intro _ hh
        exact LoopCtx.noConfusion hh
      · intro _
        exact ⟨t, hd, rfl, rfl⟩
      · intro hne
        exact absurd rfl hne
  | deqYield h hd =>
      refine ⟨?_, ?_, ?_, ?_⟩
      · intro h'
        exact absurd h' (fun hh => LoopCtx.noConfusion hh)
      · intro _ hh
        exact LoopCtx.noConfusion hh
      · intro hne
        exact absurd rfl hne
      · intro hne
        exact absurd rfl hne
  | jobExec j t hj =>
      refine ⟨fun h' hne => absurd h' hne, ?_, ?_, fun _ => ⟨rfl, rfl⟩⟩
      · intro ht
        show s.loopc ≠ LoopCtx.exited
        rw [ht]
        exact fun hh => LoopCtx.noConfusion hh
      · intro hne
        exact absurd (by simp) hne
  | jobCompl j t hj =>
      refine ⟨fun h' hne => absurd h' hne, ?_, ?_, fun _ => ⟨rfl, rfl⟩⟩
      · intro ht
        show s.loopc ≠ LoopCtx.exited
        rw [ht]
        exact fun hh => LoopCtx.noConfusion hh
      · intro hne
        exact absurd (by simp) hne

/-- Witness for C9 (amended) on a concrete dispatch step. -/
theorem async_loop_dispatch_behavior_witness :
    ((⟨[], .check, [Job.pending sampleA], []⟩ : AState).loopc
        = LoopCtx.exited →
      (⟨[sampleA], .tryDeq, [], []⟩ : AState).loopc ≠ LoopCtx.exited →
      (⟨[sampleA], .tryDeq, [], []⟩ : AState).loopc = LoopCtx.check ∧
        (⟨[sampleA], .tryDeq, [], []⟩ : AState).queue = []) ∧
    ((⟨[sampleA], .tryDeq, [], []⟩ : AState).loopc = LoopCtx.tryDeq →
      (⟨[], .check, [Job.pending sampleA], []⟩ : AState).loopc
        ≠ LoopCtx.exited) ∧
    ((⟨[], .check, [Job.pending sampleA], []⟩ : AState).jobs.length
        ≠ (⟨[sampleA], .tryDeq, [], []⟩ : AState).jobs.length →
      ∃ t, dequeue (⟨[sampleA], .tryDeq, [], []⟩ : AState).queue
          = (some t, (⟨[], .check, [Job.pending sampleA], []⟩ : AState).queue) ∧
        (⟨[], .check, [Job.pending sampleA], []⟩ : AState).jobs
          = (⟨[sampleA], .tryDeq, [], []⟩ : AState).jobs ++ [Job.pending t] ∧
        (⟨[], .check, [Job.pending sampleA], []⟩ : AState).loopc
          = LoopCtx.check) ∧
    ((⟨[], .check, [Job.pending sampleA], []⟩ : AState).events.length
        ≠ (⟨[sampleA], .tryDeq, [], []⟩ : AState).events.length →
      (⟨[], .check, [Job.pending sampleA], []⟩ : AState).queue
          = (⟨[sampleA], .tryDeq, [], []⟩ : AState).queue ∧
      (⟨[], .check, [Job.pending sampleA], []⟩ : AState).loopc
          = (⟨[sampleA], .tryDeq, [], []⟩ : AState).loopc) :=
  async_loop_dispatch_behavior (AStep.deqSpawn _ sampleA [] rfl rfl)

/-! ### C10: a zero-worker pool is inert -/

lemma step_needs_ctx {s s' : PState} (hst : Step s s') : s.ctxs ≠ [] := by
  intro hnil
  cases hst with
  | exit w h he => rw [hnil] at h; simp at h
  | poll w h he => rw [hnil] at h; simp at h
  | deqSome w t rest h hd => rw [hnil] at h; simp at h
  | deqNone w h hd => rw [hnil] at h; simp at h
  | execTask w t h => rw [hnil] at h; simp at h
  | complTask w t h => rw [hnil] at h; simp at h

lemma reach_zero_workers {q : List Task} {s : PState}
    (hr : Reach (init 0 q) s) : s = init 0 q := by
  induction hr with
  | refl => rfl
  | tail _ hbc ih =>
      rw [ih] at hbc
      exact absurd rfl (step_needs_ctx hbc)

/-- **C10.** A pool constructed with worker count 0 holds no executors; on
any pool without executors, `execute` spawns nothing and changes nothing
and `terminate` joins nothing and returns the pool unchanged; and with
zero worker contexts the running semantics can take no step at all, so
every submitted task stays queued forever and no task call ever occurs. -/
theorem zero_worker_pool_inert (p : ThreadPool) (hp : p.threads = [])
    (q : List Task) (s : PState) (hr : Reach (init 0 q) s) :
    (ThreadPool.new 0).threads = [] ∧
    ThreadPool.execute p = (p, 0) ∧
    ThreadPool.terminate p = some p ∧
    s.queue = q ∧ s.events = [] := by
  obtain ⟨m, qq, th⟩ := p
  simp only at hp
  subst hp
  have hs := reach_zero_workers hr
  exact ⟨rfl, rfl, rfl, (by rw [hs]; rfl), (by rw [hs]; rfl)⟩

/-- Witness for C10 on a pool holding one submitted task and no workers. -/
theorem zero_worker_pool_inert_witness :
    (ThreadPool.new 0).threads = [] ∧
    ThreadPool.execute ⟨0, [sampleA], []⟩ = (⟨0, [sampleA], []⟩, 0) ∧
    ThreadPool.terminate ⟨0, [sampleA], []⟩ = some ⟨0, [sampleA], []⟩ ∧
    (init 0 [sampleA]).queue = [sampleA] ∧ (init 0 [sampleA]).events = [] :=
  zero_worker_pool_inert ⟨0, [sampleA], []⟩ rfl [sampleA] (init 0 [sampleA])
    Relation.ReflTransGen.refl

end TaskManager
